import Mathlib

/-!
# config-yaml: the YAML adapter of the configuration-value interface

A shallow embedding of `value.go` and `loader.go`, followed by the properties
proved about them.

Conventions of the embedding
* A Go `interface{}` value is a `Data`: `nil`, or a dynamic type together with
  the part of the payload the adapter looks at (the elements of a
  `[]interface{}`, the entries of a `map[string]interface{}`).
* A Go pointer that may be nil is an `Option`.
* A Go `int` is an `Int`; slice lengths are below `2^63`, the iterators keep
  `offset` within `-1 .. len-1`, so neither `offset++` nor `int64(offset)` wraps.
* A Go index expression that would panic yields `none`.
* Everything the adapter calls outside of itself (the decoding methods of a
  target, the YAML engine) is a transformer of an explicit state `σ`, the
  state of the world outside the adapter, returning its result. What the
  adapter invokes, and with which arguments, is then read off the state and
  the result it returns, for every such method.
-/

namespace ConfigYaml

/-! ## Go types, `reflect.Kind` -/

/-- Go types, as far as `reflect.Type.Kind`, `Elem` and `String` tell them apart. -/
inductive GoType where
  | bool | int | int8 | int16 | int32 | int64
  | uint | uint8 | uint16 | uint32 | uint64 | uintptr
  | float32 | float64 | complex64 | complex128
  | string
  | UnsafePointer
  | array (len : Nat) (elem : GoType)
  | slice (elem : GoType)
  | map (key : GoType) (elem : GoType)
  | struct (name : String)
  | pointer (elem : GoType)
  | chan (elem : GoType)
  | func (signature : String)
  | interface (name : String)
  | named (name : String) (underlying : GoType)
  deriving DecidableEq, Repr

/-- The constants of `reflect.Kind`. -/
inductive ReflectKind where
  | Invalid | Bool | Int | Int8 | Int16 | Int32 | Int64
  | Uint | Uint8 | Uint16 | Uint32 | Uint64 | Uintptr
  | Float32 | Float64 | Complex64 | Complex128
  | Array | Chan | Func | Interface | Map | Pointer | Slice | String | Struct
  | UnsafePointer
  deriving DecidableEq, Repr

/-- `reflect.Type.Kind`: a defined (named) type has the kind of its underlying type. -/
def GoType.Kind : GoType → ReflectKind
  | .bool => .Bool
  | .int => .Int
  | .int8 => .Int8
  | .int16 => .Int16
  | .int32 => .Int32
  | .int64 => .Int64
  | .uint => .Uint
  | .uint8 => .Uint8
  | .uint16 => .Uint16
  | .uint32 => .Uint32
  | .uint64 => .Uint64
  | .uintptr => .Uintptr
  | .float32 => .Float32
  | .float64 => .Float64
  | .complex64 => .Complex64
  | .complex128 => .Complex128
  | .string => .String
  | .UnsafePointer => .UnsafePointer
  | .array _ _ => .Array
  | .slice _ => .Slice
  | .map _ _ => .Map
  | .struct _ => .Struct
  | .pointer _ => .Pointer
  | .chan _ => .Chan
  | .func _ => .Func
  | .interface _ => .Interface
  | .named _ u => u.Kind

/-- `reflect.Type.Elem`; `none` where the library panics (no element type). -/
def GoType.Elem : GoType → Option GoType
  | .array _ e => some e
  | .slice e => some e
  | .map _ e => some e
  | .pointer e => some e
  | .chan e => some e
  | .named _ u => u.Elem
  | _ => none

/-- `reflect.Type.String`, used by the `%s` verb in the iterator errors. -/
def GoType.String : GoType → String
  | .bool => "bool"
  | .int => "int"
  | .int8 => "int8"
  | .int16 => "int16"
  | .int32 => "int32"
  | .int64 => "int64"
  | .uint => "uint"
  | .uint8 => "uint8"
  | .uint16 => "uint16"
  | .uint32 => "uint32"
  | .uint64 => "uint64"
  | .uintptr => "uintptr"
  | .float32 => "float32"
  | .float64 => "float64"
  | .complex64 => "complex64"
  | .complex128 => "complex128"
  | .string => "string"
  | .UnsafePointer => "unsafe.Pointer"
  | .array n e => "[" ++ Nat.repr n ++ "]" ++ e.String
  | .slice e => "[]" ++ e.String
  | .map k e => "map[" ++ k.String ++ "]" ++ e.String
  | .struct name => name
  | .pointer e => "*" ++ e.String
  | .chan e => "chan " ++ e.String
  | .func sig => sig
  | .interface name => name
  | .named name _ => name

/-- The type `interface{}`. -/
def emptyInterface : GoType := .interface "interface {}"

/-- The type `[]interface{}`, the "generic sequence". -/
def genericSlice : GoType := .slice emptyInterface

/-- The type `map[string]interface{}`, the "string-keyed generic mapping". -/
def genericMap : GoType := .map .string emptyInterface

/-! ## Interface values, containers -/

/-- A value of static type `interface{}`.

`slice` is a value of dynamic type `[]interface{}`, `mapping` one of dynamic
type `map[string]interface{}` (keys are distinct, as in every Go map), and
`other t` a value of any other dynamic type `t`, whose contents the adapter
never inspects. -/
inductive Data where
  | nil
  | slice (array : List Data)
  | mapping (mmap : List (String × Data))
  | other (t : GoType)

/-- `reflect.TypeOf`: the dynamic type, `none` for the nil interface. -/
def Data.TypeOf : Data → Option GoType
  | .nil => none
  | .slice _ => some genericSlice
  | .mapping _ => some genericMap
  | .other t => some t

/-- `gabs.Container`: a single field holding the decoded document node. -/
structure Container where
  object : Data

/-- Modelled from the spec: `(*gabs.Container).Data` of the external gabs
library; a nil container has nil data. -/
def Container.Data : Option Container → Data
  | none => .nil
  | some g => g.object

/-- Modelled from the spec: `(*gabs.Container).Children` of the external gabs
library. For a generic sequence it returns one container per element, in the
original order. For a mapping the library returns the values in an
unspecified order (here: the stored one); `value.List` never reaches that
branch. Anything else has no children. -/
def Container.Children (g : Option Container) : List (Option Container) :=
  match Container.Data g with
  | .slice array => array.map (fun obj => some ⟨obj⟩)
  | .mapping mmap => mmap.map (fun kv => some ⟨kv.2⟩)
  | _ => []

/-- Modelled from the spec: `(*gabs.Container).ChildrenMap` of the external
gabs library: the map with the same keys, every entry wrapped in a container;
the empty map for a node that is not a mapping. -/
def Container.ChildrenMap (g : Option Container) : List (String × Option Container) :=
  match Container.Data g with
  | .mapping mmap => mmap.map (fun kv => (kv.1, some ⟨kv.2⟩))
  | _ => []

/-! ## Go maps: lookup and `range` -/

/-- The index expression `m[k]` on a map whose values are pointers: the stored
value, or the zero value (nil) when the key is absent. -/
def mapIndex {α : Type} (m : List (String × Option α)) (k : String) : Option α :=
  match m.lookup k with
  | some c => c
  | none => none

/-- Insert `x` at position `i` (at the end when `i` is past it). -/
def insertAt {α : Type} (i : Nat) (x : α) : List α → List α
  | [] => [x]
  | y :: ys =>
    match i with
    | 0 => x :: y :: ys
    | j + 1 => y :: insertAt j x ys

/-- The choice the runtime makes for one `range` loop over a map: the positions
at which the entries are inserted, one after the other, into the visiting
order. -/
abbrev RangeOrder : Type := List Nat

/-- The order in which one `for ... range m` statement visits the entries of a
map. Go leaves it unspecified; `order` is the choice made by the runtime for
this loop, and every order is obtained from some `order`
(see `mapRange_complete`). -/
def mapRange {α : Type} : RangeOrder → List α → List α
  | _, [] => []
  | [], x :: xs => x :: mapRange [] xs
  | c :: cs, x :: xs => insertAt c x (mapRange cs xs)

/-- The index expression `xs[i]` on a slice with an `int` index: `none` is the
run-time panic "index out of range". -/
def sliceIndex {α : Type} (xs : List α) (i : Int) : Option α :=
  if i < 0 then none else xs[i.toNat]?

/-! ## Errors -/

/-- Go error values: a plain error, or the `*fmt.wrapError` that `fmt.Errorf`
builds for a format with one `%w` verb. -/
inductive GoError where
  | errorString (msg : String)
  | wrapError (msg : String) (err : GoError)
  deriving DecidableEq, Repr

/-- The method `Error()`. -/
def GoError.Error : GoError → String
  | .errorString msg => msg
  | .wrapError msg _ => msg

/-- The method `Unwrap()`, nil for an error that wraps nothing. -/
def GoError.Unwrap : GoError → Option GoError
  | .errorString _ => none
  | .wrapError _ err => some err

/-- `errors.Is`: `target` occurs on the `Unwrap` chain of `err`. -/
def errorsIs : GoError → GoError → Bool
  | .errorString msg, target => GoError.errorString msg == target
  | .wrapError msg err, target => GoError.wrapError msg err == target || errorsIs err target

/-- The `%s` rendering of `reflect.TypeOf(data)`. -/
def typeVerb : Option GoType → String
  | none => "%!s(<nil>)"
  | some t => t.String

/-! ## `value.go`: the value and its iterators -/

/-- `type value struct { result *gabs.Container }` -/
structure value where
  result : Option Container

/-- `type listIterator struct { offset int; data []*gabs.Container }` -/
structure listIterator where
  offset : Int
  data : List (Option Container)

/-- `listIterator.Next`: the answer and the iterator afterwards. -/
def listIterator.Next (l : listIterator) : Bool × listIterator :=
  if l.offset ≥ (l.data.length : Int) - 1 then
    (false, l)
  else
    (true, { l with offset := l.offset + 1 })

/-- `listIterator.Value`; `none` when `l.data[l.offset]` panics. -/
def listIterator.Value (l : listIterator) : Option value :=
  (sliceIndex l.data l.offset).map (fun c => { result := c })

/-- `strconv.FormatInt(i, 10)`. -/
def FormatInt10 (i : Int) : String :=
  if i < 0 then "-" ++ Nat.repr i.natAbs else Nat.repr i.toNat

/-- `listIterator.Label` -/
def listIterator.Label (l : listIterator) : String :=
  FormatInt10 l.offset

/-- `type structIterator struct { offset int; keys []string; data map[string]*gabs.Container }` -/
structure structIterator where
  offset : Int
  keys : List String
  data : List (String × Option Container)

/-- `structIterator.Next`: the answer and the iterator afterwards. -/
def structIterator.Next (s : structIterator) : Bool × structIterator :=
  if s.offset ≥ (s.keys.length : Int) - 1 then
    (false, s)
  else
    (true, { s with offset := s.offset + 1 })

/-- `structIterator.Value`; `none` when `s.keys[s.offset]` panics. -/
def structIterator.Value (s : structIterator) : Option value :=
  (sliceIndex s.keys s.offset).map (fun k => { result := mapIndex s.data k })

/-- `structIterator.Label`; `none` when `s.keys[s.offset]` panics. -/
def structIterator.Label (s : structIterator) : Option String :=
  sliceIndex s.keys s.offset

/-- `NewJsonValue` -/
def NewJsonValue (c : Option Container) : value :=
  { result := c }

/-- `value.Interface`: the data and a nil error. -/
def value.Interface (v : value) : Data × Option GoError :=
  (Container.Data v.result, none)

/-- `value.Ref` -/
def value.Ref (_v : value) : String :=
  "unsupported operation"

/-- `value.File` -/
def value.File (_v : value) : String :=
  "/tmp"

/-- `value.List` -/
def value.List (v : value) : Except GoError listIterator :=
  let data := Container.Data v.result
  match data with
  | .slice _ => .ok { data := Container.Children v.result, offset := -1 }
  | _ => .error (.errorString ("unsupported iterator type `" ++ typeVerb data.TypeOf ++ "`"))

/-- `value.Struct`; `order` is the order chosen for its `range` loop. -/
def value.Struct (order : RangeOrder) (v : value) : Except GoError structIterator :=
  let data := Container.Data v.result
  match data with
  | .mapping _ =>
    let dataMap := Container.ChildrenMap v.result
    let dataKeys := (mapRange order dataMap).foldl (fun keys kv => keys ++ [kv.1]) []
    .ok { data := dataMap, offset := -1, keys := dataKeys }
  | _ => .error (.errorString ("unsupported iterator type `" ++ typeVerb data.TypeOf ++ "`"))

/-- The constants of `config.Kind`. -/
inductive Kind where
  | UndefinedKind | NullKind | StringKind | BoolKind | NumberKind
  | DecimalKind | StructKind | ListKind | BytesKind
  deriving DecidableEq, Repr

/-- `value.Kind` -/
def value.Kind (v : value) : Kind :=
  match v.Interface with
  | (_, some _) => .UndefinedKind
  | (data, none) =>
    match data.TypeOf with
    | none => .NullKind
    | some dataType =>
      match dataType.Kind with
      | .Invalid | .UnsafePointer | .Interface | .Chan | .Func => .UndefinedKind
      | .String => .StringKind
      | .Bool => .BoolKind
      | .Int | .Int8 | .Int16 | .Int32 | .Int64
      | .Uint | .Uint8 | .Uint16 | .Uint32 | .Uint64 | .Uintptr => .NumberKind
      | .Float32 | .Float64 | .Complex64 | .Complex128 => .DecimalKind
      | .Struct | .Map => .StructKind
      | .Slice | .Array =>
        if dataType.Elem = some GoType.uint8 then .BytesKind else .ListKind
      | _ => .UndefinedKind

/-! ## `value.go`: decoding -/

/-- Byte strings. -/
abbrev Bytes : Type := List UInt8

/-- Values of `context.Context`: the background and TODO contexts, any other
context a caller may supply (told apart by `id`), and the package's own
`*ctxBypass` wrapper around an embedded context. -/
inductive Context where
  | Background
  | TODO
  | custom (id : Nat)
  | ctxBypass (embedded : Context)
  deriving DecidableEq, Repr

/-- A decode target, seen through the three type assertions of `DecodeWithCtx`:
each field is `some method` when the target implements the interface
(`config.Decoder`, `config.CtxDecoder`, `config.CtxConfigDecoder`). A method is
user code: it takes its arguments and the state `σ` outside the adapter (the
fields of the target included) and returns the new state and its error,
`none` for nil. Go itself excludes a target with both `Decoder` and
`CtxDecoder` (one method name, two signatures); the model does not need that
restriction. -/
structure Target (σ : Type) where
  Decoder : Option (value → σ → σ × Option GoError)
  CtxDecoder : Option (Context → value → σ → σ × Option GoError)
  CtxConfigDecoder : Option (Context → value → σ → σ × Option GoError)

/-- The external YAML engine: `(*gabs.Container).MarshalYAML`, `yaml.Unmarshal`
(which writes into the target) and `gabs.ParseYAML`, each acting on the state
`σ` outside the adapter. -/
structure YamlEngine (σ : Type) where
  MarshalYAML : Option Container → σ → σ × Except GoError Bytes
  Unmarshal : Bytes → Target σ → σ → σ × Option GoError
  ParseYAML : Bytes → σ → σ × Except GoError Container

/-- `fmt.Errorf("%w: (position: %s)", err, ref)` -/
def errorfPosition (err : GoError) (ref : String) : GoError :=
  .wrapError (err.Error ++ ": (position: " ++ ref ++ ")") err

/-- `fmt.Errorf("%w (path: %s)", err, path)` -/
def errorfPath (err : GoError) (path : String) : GoError :=
  .wrapError (err.Error ++ " (path: " ++ path ++ ")") err

/-- The type assertion `ctx.(*ctxBypass)` followed by `ctx = _bypass.Context`. -/
def stripBypass : Context → Context
  | .ctxBypass embedded => embedded
  | ctx => ctx

/-- `value.DecodeWithCtx`, from the state `w`: the state afterwards and the
error returned. -/
def value.DecodeWithCtx {σ : Type} (yaml : YamlEngine σ) (v : value) (ctx : Context)
    (target : Target σ) (w : σ) : σ × Option GoError :=
  match target.Decoder with
  | some decoder =>
    match decoder v w with
    | (w, some err) => (w, some (errorfPosition err v.Ref))
    | (w, none) => (w, none)
  | none =>
    match target.CtxDecoder with
    | some decoder =>
      let ctx := stripBypass ctx
      match decoder ctx v w with
      | (w, some err) => (w, some (errorfPosition err v.Ref))
      | (w, none) => (w, none)
    | none =>
      match target.CtxConfigDecoder with
      | some decoder =>
        let ctx := stripBypass ctx
        match decoder ctx v w with
        | (w, some err) => (w, some (errorfPosition err v.Ref))
        | (w, none) => (w, none)
      | none =>
        match yaml.MarshalYAML v.result w with
        | (w, .error err) => (w, some (errorfPosition err v.Ref))
        | (w, .ok jBytes) => yaml.Unmarshal jBytes target w

/-- `value.Decode` -/
def value.Decode {σ : Type} (yaml : YamlEngine σ) (v : value) (target : Target σ) (w : σ) :
    σ × Option GoError :=
  v.DecodeWithCtx yaml (.ctxBypass .Background) target w

/-- The error carries the position annotation of `DecodeWithCtx` around `inner`. -/
def annotated (e inner : GoError) : Bool :=
  e == GoError.wrapError (inner.Error ++ ": (position: unsupported operation)") inner

/-! ## `loader.go` -/

/-- `const Name = "yaml"` -/
def Name : String := "yaml"

/-- `Loader.Type` -/
def Loader.Type : String := Name

/-- `Loader.AllowDir` -/
def Loader.AllowDir : Bool := false

/-- The result of `Loader.Load`: the state afterwards, the value and the error. -/
structure Loaded (σ : Type) where
  world : σ
  val : Option value
  err : Option GoError

/-- `Loader.Load`, from the state `w`; `ErrPathNotFound` is the sentinel
`config.ErrPathNotFound` of the host package, `files` the file set (a Go map:
distinct keys). -/
def Loader.Load {σ : Type} (yaml : YamlEngine σ) (ErrPathNotFound : GoError) (path : String)
    (files : List (String × Bytes)) (w : σ) : Loaded σ :=
  match files.lookup path with
  | none => { world := w, val := none, err := some (errorfPath ErrPathNotFound path) }
  | some content =>
    match yaml.ParseYAML content w with
    | (w, .error err) => { world := w, val := none, err := some (errorfPath err path) }
    | (w, .ok result) => { world := w, val := some { result := some result }, err := none }

/-! ## Regular expressions (`regexp`), as far as the path pattern needs them -/

/-- Syntax trees of `regexp/syntax`: empty match, literal, `.` (any character
but newline, the default without the `s` flag), concatenation, alternation,
star, capture group, and the expression that matches nothing. -/
inductive Regex where
  | NoMatch
  | EmptyMatch
  | Literal (c : Char)
  | AnyCharNotNL
  | Concat (a b : Regex)
  | Alternate (a b : Regex)
  | Star (a : Regex)
  | Capture (a : Regex)
  deriving DecidableEq, Repr

/-- The expression matches the empty string. -/
def Regex.nullable : Regex → Bool
  | .NoMatch => false
  | .EmptyMatch => true
  | .Literal _ => false
  | .AnyCharNotNL => false
  | .Concat a b => a.nullable && b.nullable
  | .Alternate a b => a.nullable || b.nullable
  | .Star _ => true
  | .Capture a => a.nullable

/-- Brzozowski derivative: what remains to be matched after reading `c`. -/
def Regex.deriv (c : Char) : Regex → Regex
  | .NoMatch => .NoMatch
  | .EmptyMatch => .NoMatch
  | .Literal d => if c = d then .EmptyMatch else .NoMatch
  | .AnyCharNotNL => if c = '\n' then .NoMatch else .EmptyMatch
  | .Concat a b =>
    if a.nullable then .Alternate (.Concat (a.deriv c) b) (b.deriv c)
    else .Concat (a.deriv c) b
  | .Alternate a b => .Alternate (a.deriv c) (b.deriv c)
  | .Star a => .Concat (a.deriv c) (.Star a)
  | .Capture a => a.deriv c

/-- Some initial segment of the text matches the expression. -/
def Regex.matchFrom : Regex → List Char → Bool
  | r, [] => r.nullable
  | r, c :: cs => r.nullable || (r.deriv c).matchFrom cs

/-- `(*regexp.Regexp).MatchString`: the text contains a match, starting anywhere
and ending anywhere (the search is not anchored). -/
def Regex.MatchString (r : Regex) : List Char → Bool
  | [] => r.matchFrom []
  | c :: cs => r.matchFrom (c :: cs) || r.MatchString cs

/-- The language of an expression: `r.Matches s` when the whole of `s` matches. -/
inductive Regex.Matches : Regex → List Char → Prop where
  | emptyMatch : Regex.Matches .EmptyMatch []
  | literal (c : Char) : Regex.Matches (.Literal c) [c]
  | anyCharNotNL (c : Char) (h : c ≠ '\n') : Regex.Matches .AnyCharNotNL [c]
  | concat {a b : Regex} {s t : List Char} :
      Regex.Matches a s → Regex.Matches b t → Regex.Matches (.Concat a b) (s ++ t)
  | alternateLeft {a : Regex} (b : Regex) {s : List Char} :
      Regex.Matches a s → Regex.Matches (.Alternate a b) s
  | alternateRight (a : Regex) {b : Regex} {s : List Char} :
      Regex.Matches b s → Regex.Matches (.Alternate a b) s
  | starNil (a : Regex) : Regex.Matches (.Star a) []
  | starCons {a : Regex} {s t : List Char} :
      Regex.Matches a s → Regex.Matches (.Star a) t → Regex.Matches (.Star a) (s ++ t)
  | capture {a : Regex} {s : List Char} : Regex.Matches a s → Regex.Matches (.Capture a) s

/-- The literal string `s` as an expression. -/
def Regex.ofString : List Char → Regex
  | [] => .EmptyMatch
  | c :: cs => .Concat (.Literal c) (Regex.ofString cs)

/-- Entries of the parse stack of `regexp/syntax`: an expression, or one of the
two markers left by `(` and `|`. -/
inductive ParseItem where
  | node (r : Regex)
  | leftParen
  | verticalBar
  deriving DecidableEq, Repr

/-- Pop the expressions above the nearest marker and concatenate them in the
order they were read (the top of the stack is the head of the list). -/
def collapseConcat : List ParseItem → Regex → Regex × List ParseItem
  | .node r :: rest, acc => collapseConcat rest (.Concat r acc)
  | rest, acc => (acc, rest)

/-- Pop the alternatives separated by `|` markers and join them. -/
def collapseAlternate : List ParseItem → Regex → Regex × List ParseItem
  | .verticalBar :: .node r :: rest, acc => collapseAlternate rest (.Alternate r acc)
  | rest, acc => (acc, rest)

/-- The parser state: the stack and whether the last character was a backslash. -/
structure ParseState where
  stack : List ParseItem
  escaped : Bool

/-- Characters with a meaning the model does not cover: the parse is refused. -/
def unsupportedMeta : List Char :=
  ['+', '?', '[', ']', '^', '$', Char.ofNat 123, Char.ofNat 125]

/-- One character of the pattern, for the operators of `configPathRegex`:
literals, `.`, `*`, `|`, groups and escaped punctuation. `none` is a syntax
error (or an operator outside this fragment). -/
def parseStep (st : ParseState) (c : Char) : Option ParseState :=
  if st.escaped then
    if c.isAlphanum then none
    else some { stack := .node (.Literal c) :: st.stack, escaped := false }
  else if c = '\\' then
    some { st with escaped := true }
  else if c = '.' then
    some { st with stack := .node .AnyCharNotNL :: st.stack }
  else if c = '*' then
    match st.stack with
    | .node r :: rest => some { st with stack := .node (.Star r) :: rest }
    | _ => none
  else if c = '(' then
    some { st with stack := .leftParen :: st.stack }
  else if c = '|' then
    match collapseConcat st.stack .EmptyMatch with
    | (r, rest) => some { st with stack := .verticalBar :: .node r :: rest }
  else if c = ')' then
    match collapseConcat st.stack .EmptyMatch with
    | (r, rest) =>
      match collapseAlternate rest r with
      | (alt, .leftParen :: below) => some { st with stack := .node (.Capture alt) :: below }
      | _ => none
  else if c ∈ unsupportedMeta then
    none
  else
    some { st with stack := .node (.Literal c) :: st.stack }

/-- Run the parser over the pattern. -/
def parseChars : ParseState → List Char → Option ParseState
  | st, [] => some st
  | st, c :: cs =>
    match parseStep st c with
    | some st1 => parseChars st1 cs
    | none => none

/-- `regexp.Compile`, as far as the syntax tree goes: `none` is a syntax error. -/
def Compile (expr : String) : Option Regex :=
  match parseChars { stack := [], escaped := false } expr.toList with
  | some st =>
    if st.escaped then none
    else
      match collapseConcat st.stack .EmptyMatch with
      | (r, rest) =>
        match collapseAlternate rest r with
        | (alt, []) => some alt
        | _ => none
  | none => none

/-- `regexp.MustCompile`: `none` is the panic on a pattern that does not parse. -/
def MustCompile (expr : String) : Option Regex :=
  Compile expr

/-- `const configPathRegex` -/
def configPathRegex : String := ".*\\.(yaml|yml)"

/-- The expression `configPathRegex` denotes: `.*`, then the escaped dot, then
the group `(yaml|yml)`. -/
def configPathRegexTree : Regex :=
  .Concat (.Star .AnyCharNotNL)
    (.Concat (.Literal '.')
      (.Concat
        (.Capture (.Alternate (Regex.ofString "yaml".toList) (Regex.ofString "yml".toList)))
        .EmptyMatch))

/-- `Loader.PathPattern`; `none` if `MustCompile` panicked. -/
def Loader.PathPattern : Option Regex :=
  MustCompile configPathRegex

/-- The path ends with the suffix `.yaml` or `.yml`. -/
def hasYamlSuffix (path : List Char) : Bool :=
  ".yaml".toList.isSuffixOf path || ".yml".toList.isSuffixOf path

/-! ## Driving the iterators -/

/-- The iterator after `k` calls of `Next`. -/
def listIterator.advance : Nat → listIterator → listIterator
  | 0, l => l
  | k + 1, l => listIterator.advance k l.Next.2

/-- The iterator after `k` calls of `Next`. -/
def structIterator.advance : Nat → structIterator → structIterator
  | 0, s => s
  | k + 1, s => structIterator.advance k s.Next.2

/-- The consumer loop `for s.Next() { visit(s.Label(), s.Value()) }`: the visited
pairs in order. `none` when `Next` has not answered false after `fuel` calls,
or when `Label` or `Value` panics. -/
def structIterator.drain : Nat → structIterator → Option (List (String × value))
  | 0, _ => none
  | fuel + 1, s =>
    match s.Next with
    | (false, _) => some []
    | (true, s1) =>
      match s1.Label, s1.Value with
      | some k, some v => (structIterator.drain fuel s1).map (fun rest => (k, v) :: rest)
      | _, _ => none

/-! ## Recording instances and sample inputs -/

/-- What a recording method notes down when it is called: which method it is
and the arguments it received. -/
inductive Call where
  | Decode (v : value)
  | CtxDecode (ctx : Context) (v : value)
  | DecodeConfig (ctx : Context) (v : value)
  | MarshalYAML (g : Option Container)
  | Unmarshal (jBytes : Bytes)
  | ParseYAML (content : Bytes)

/-- The calls noted down so far, in order: the state of the recording instances. -/
abbrev Trace : Type := List Call

/-- A target whose methods note down the call they receive and return a fixed
answer: `plain`, `ctxAware` and `config` say whether the target implements
`Decoder`, `CtxDecoder` and `CtxConfigDecoder`, and with which answer. -/
def recordingTarget (plain ctxAware config : Option (Option GoError)) : Target Trace :=
  { Decoder := plain.map (fun answer v w => (w ++ [Call.Decode v], answer))
    CtxDecoder := ctxAware.map (fun answer ctx v w => (w ++ [Call.CtxDecode ctx v], answer))
    CtxConfigDecoder :=
      config.map (fun answer ctx v w => (w ++ [Call.DecodeConfig ctx v], answer)) }

/-- A YAML engine whose functions note down the call they receive and return
fixed answers. -/
def recordingEngine (marshal : Except GoError Bytes) (unmarshal : Option GoError)
    (parse : Except GoError Container) : YamlEngine Trace :=
  { MarshalYAML := fun g w => (w ++ [Call.MarshalYAML g], marshal)
    Unmarshal := fun jBytes _ w => (w ++ [Call.Unmarshal jBytes], unmarshal)
    ParseYAML := fun content w => (w ++ [Call.ParseYAML content], parse) }

/-- A value built with `NewJsonValue` over a `[]string`. -/
def stringSliceValue : value :=
  NewJsonValue (some ⟨Data.other (.slice .string)⟩)

/-- A value holding the YAML scalar `"x"`. -/
def scalarValue : value :=
  NewJsonValue (some ⟨Data.other .string⟩)

/-- A target without any decoding capability, such as a `*int`. -/
def plainTarget : Target Trace :=
  recordingTarget none none none

/-- A target implementing `Decoder` (answer nil) and `CtxConfigDecoder` (answer
an error). -/
def plainAndConfigTarget : Target Trace :=
  recordingTarget (some none) none (some (some (.errorString "config")))

/-- A target implementing `CtxDecoder` only (answer nil). -/
def ctxTarget : Target Trace :=
  recordingTarget none (some none) none

/-- The error `yaml.Unmarshal` reports for a string scalar decoded into an `int`. -/
def unmarshalError : GoError :=
  .errorString "yaml: unmarshal errors:\n  line 1: cannot unmarshal !!str `x` into int"

/-- A YAML engine on which marshalling succeeds and `yaml.Unmarshal` into the
target fails. -/
def failingUnmarshal : YamlEngine Trace :=
  recordingEngine (.ok [120, 10]) (some unmarshalError) (.ok ⟨Data.other .string⟩)

/-! # Properties -/

/-! ## List iterator -/

theorem sliceIndex_natCast {α : Type} (xs : List α) (n : Nat) :
    sliceIndex xs (n : Int) = xs[n]? := by
  simp [sliceIndex]

theorem listIterator.advance_data (k : Nat) (l : listIterator) :
    (l.advance k).data = l.data := by
  induction k generalizing l with
  | zero => rfl
  | succ k ih =>
    simp only [listIterator.advance]
    rw [ih]
    unfold listIterator.Next
    split <;> rfl

theorem listIterator.advance_offset (k : Nat) (l : listIterator)
    (h : l.offset ≤ (l.data.length : Int) - 1) :
    (l.advance k).offset = min (l.offset + k) ((l.data.length : Int) - 1) := by
  induction k generalizing l with
  | zero => simp [listIterator.advance, h]
  | succ k ih =>
    simp only [listIterator.advance]
    by_cases hlt : l.offset ≥ (l.data.length : Int) - 1
    · have hn : l.Next = (false, l) := by simp [listIterator.Next, hlt]
      rw [hn, ih l h]
      simp only [min_def]
      split <;> split <;> push_cast at * <;> omega
    · have hn : l.Next = (true, { l with offset := l.offset + 1 }) := by
        simp [listIterator.Next, hlt]
      rw [hn, ih _ (by simp only; omega)]
      simp only [min_def]
      split <;> split <;> push_cast at * <;> omega

theorem listIterator.Next_fst (l : listIterator) :
    l.Next.1 = decide (l.offset < (l.data.length : Int) - 1) := by
  unfold listIterator.Next
  split <;> simp <;> omega

theorem FormatInt10_natCast (n : Nat) : FormatInt10 (n : Int) = Nat.repr n := by
  simp [FormatInt10]

theorem Children_of_slice (g : Option Container) (array : List Data)
    (h : Container.Data g = Data.slice array) :
    Container.Children g = array.map (fun obj => some ⟨obj⟩) := by
  simp [Container.Children, h]

theorem List_of_slice (v : value) (array : List Data)
    (h : Container.Data v.result = Data.slice array) :
    v.List = .ok { offset := -1, data := array.map (fun obj => some ⟨obj⟩) } := by
  simp [value.List, h, Children_of_slice v.result array h]

/-- State of a fresh list iterator over `cs` after `k` calls of `Next`. -/
theorem listIterator.fresh_advance (cs : List (Option Container)) (k : Nat) :
    (listIterator.advance k { offset := -1, data := cs }).data = cs ∧
    (listIterator.advance k { offset := -1, data := cs }).offset
      = min ((k : Int) - 1) ((cs.length : Int) - 1) := by
  refine ⟨listIterator.advance_data k _, ?_⟩
  rw [listIterator.advance_offset k _ (by simp only; omega)]
  simp only [min_def]
  split <;> split <;> omega

/-- C1: for a value whose data is a generic sequence of N children, `List()`
returns an iterator at offset -1; the first N calls of `Next()` answer true and
every later call answers false; after the k-th successful `Next()`
(1 ≤ k ≤ N) `Label()` is the decimal string of k-1. -/
theorem List_iterator_counts_and_labels (v : value) (array : List Data)
    (h : Container.Data v.result = Data.slice array) :
    ∃ it, v.List = .ok it ∧ it.offset = -1 ∧
      (∀ k, 1 ≤ k → k ≤ array.length →
        (it.advance (k - 1)).Next.1 = true ∧ (it.advance k).Label = Nat.repr (k - 1)) ∧
      (∀ k, array.length < k → (it.advance (k - 1)).Next.1 = false) := by
  refine ⟨_, List_of_slice v array h, rfl, ?_, ?_⟩
  · intro k hk1 hkN
    obtain ⟨hd, ho⟩ := listIterator.fresh_advance (array.map (fun obj => some ⟨obj⟩)) (k - 1)
    obtain ⟨_, ho2⟩ := listIterator.fresh_advance (array.map (fun obj => some ⟨obj⟩)) k
    constructor
    · rw [listIterator.Next_fst, hd, ho]
      simp only [List.length_map, min_def, decide_eq_true_eq]
      split <;> omega
    · have : (listIterator.advance k
          { offset := -1, data := array.map (fun obj => some ⟨obj⟩) }).offset
          = ((k - 1 : Nat) : Int) := by
        rw [ho2]
        simp only [List.length_map, min_def]
        split <;> omega
      rw [listIterator.Label, this, FormatInt10_natCast]
  · intro k hk
    obtain ⟨hd, ho⟩ := listIterator.fresh_advance (array.map (fun obj => some ⟨obj⟩)) (k - 1)
    rw [listIterator.Next_fst, hd, ho]
    simp only [List.length_map, min_def, decide_eq_false_iff_not]
    split <;> omega

/-- C1 at the sequence `[nil, nil]`: two successful steps labelled "0" and "1". -/
theorem List_iterator_counts_and_labels_witness :
    Container.Data (NewJsonValue (some ⟨Data.slice [Data.nil, Data.nil]⟩)).result
      = Data.slice [Data.nil, Data.nil] ∧
    ∃ it, (NewJsonValue (some ⟨Data.slice [Data.nil, Data.nil]⟩)).List = .ok it ∧
      it.offset = -1 ∧
      (∀ k, 1 ≤ k → k ≤ [Data.nil, Data.nil].length →
        (it.advance (k - 1)).Next.1 = true ∧ (it.advance k).Label = Nat.repr (k - 1)) ∧
      (∀ k, [Data.nil, Data.nil].length < k → (it.advance (k - 1)).Next.1 = false) :=
  ⟨rfl, List_iterator_counts_and_labels _ _ rfl⟩

/-- C10: for the iterator `List()` returns over children c_0 .. c_(N-1): after
any number of `Next()` calls the offset is within -1 .. N-1; once a `Next()`
has answered true, `Value()` does not index out of bounds; after the k-th
successful `Next()` it wraps c_(k-1); and once `Next()` answers false (after
at least one success, so N ≥ 1) it keeps wrapping the last child c_(N-1). -/
theorem List_iterator_value_in_range (v : value) (array : List Data)
    (h : Container.Data v.result = Data.slice array) :
    ∃ it, v.List = .ok it ∧ ∀ k : Nat,
      (-1 ≤ (it.advance k).offset ∧ (it.advance k).offset ≤ (array.length : Int) - 1) ∧
      ((∃ j, j < k ∧ (it.advance j).Next.1 = true) → ∃ w, (it.advance k).Value = some w) ∧
      (∀ c, 1 ≤ k → array[k - 1]? = some c →
        (it.advance k).Value = some { result := some ⟨c⟩ }) ∧
      (∀ c, array.length < k → array[array.length - 1]? = some c →
        (it.advance (k - 1)).Next.1 = false ∧
        (it.advance k).Value = some { result := some ⟨c⟩ }) := by
  refine ⟨_, List_of_slice v array h, ?_⟩
  intro k
  obtain ⟨hd, ho⟩ := listIterator.fresh_advance (array.map (fun obj => some ⟨obj⟩)) k
  simp only [List.length_map] at ho
  have hval : ∀ (i : Nat) (c : Data), ((i : Int) = (listIterator.advance k
      { offset := -1, data := array.map (fun obj => some ⟨obj⟩) }).offset) →
      array[i]? = some c →
      (listIterator.advance k
        { offset := -1, data := array.map (fun obj => some ⟨obj⟩) }).Value
        = some { result := some ⟨c⟩ } := by
    intro i c hi hc
    rw [listIterator.Value, hd, ← hi, sliceIndex_natCast]
    simp [hc]
  refine ⟨?_, ?_, ?_, ?_⟩
  · rw [ho]
    simp only [min_def]
    split <;> omega
  · rintro ⟨j, hjk, hj⟩
    obtain ⟨hdj, hoj⟩ := listIterator.fresh_advance (array.map (fun obj => some ⟨obj⟩)) j
    rw [listIterator.Next_fst, hdj, hoj] at hj
    simp only [List.length_map, min_def, decide_eq_true_eq] at hj
    have hN : 0 < array.length := by split at hj <;> omega
    have hlt : (min k array.length - 1) < array.length := by omega
    refine ⟨_, hval (min k array.length - 1) (array.get ⟨_, hlt⟩) ?_ ?_⟩
    · rw [ho]
      simp only [min_def]
      split <;> split <;> omega
    · exact List.getElem?_eq_getElem hlt
  · intro c hk hc
    have hlt : k - 1 < array.length := by
      by_contra hge
      rw [List.getElem?_eq_none (by omega)] at hc
      exact absurd hc (by simp)
    refine hval (k - 1) c ?_ hc
    rw [ho]
    simp only [min_def]
    split <;> omega
  · intro c hk hc
    have hlt : array.length - 1 < array.length := by
      by_contra hge
      rw [List.getElem?_eq_none (by omega)] at hc
      exact absurd hc (by simp)
    obtain ⟨hd1, ho1⟩ := listIterator.fresh_advance (array.map (fun obj => some ⟨obj⟩)) (k - 1)
    constructor
    · rw [listIterator.Next_fst, hd1, ho1]
      simp only [List.length_map, min_def, decide_eq_false_iff_not]
      split <;> omega
    · refine hval (array.length - 1) c ?_ hc
      rw [ho]
      simp only [min_def]
      split <;> omega

/-! ## Struct iterator -/

theorem insertAt_perm {α : Type} (i : Nat) (x : α) (l : List α) :
    (insertAt i x l).Perm (x :: l) := by
  induction l generalizing i with
  | nil => simp [insertAt]
  | cons y ys ih =>
    cases i with
    | zero => simp [insertAt]
    | succ j =>
      simp only [insertAt]
      exact ((ih j).cons y).trans (List.Perm.swap x y ys)

theorem mapRange_perm {α : Type} (order : RangeOrder) (l : List α) :
    (mapRange order l).Perm l := by
  induction l generalizing order with
  | nil => cases order <;> simp [mapRange]
  | cons x xs ih =>
    cases order with
    | nil => simpa [mapRange] using ih []
    | cons c cs =>
      simp only [mapRange]
      exact (insertAt_perm c x _).trans ((ih cs).cons x)

theorem insertAt_length_append {α : Type} (x : α) (l₁ l₂ : List α) :
    insertAt l₁.length x (l₁ ++ l₂) = l₁ ++ x :: l₂ := by
  induction l₁ with
  | nil => cases l₂ <;> simp [insertAt]
  | cons y ys ih => simp [insertAt, ih]

/-- Every visiting order of the entries is the choice of some `order`. -/
theorem mapRange_complete {α : Type} (xs ys : List α) (h : ys.Perm xs) :
    ∃ order : RangeOrder, mapRange order xs = ys := by
  induction xs generalizing ys with
  | nil =>
    have : ys = [] := List.Perm.eq_nil h
    exact ⟨[], by simp [mapRange, this]⟩
  | cons x xs ih =>
    have hx : x ∈ ys := h.symm.subset (List.mem_cons_self x xs)
    obtain ⟨l₁, l₂, rfl⟩ := List.append_of_mem hx
    have h2 : (l₁ ++ l₂).Perm xs :=
      (List.perm_cons x).1 ((List.perm_middle.symm).trans h)
    obtain ⟨cs, hcs⟩ := ih (l₁ ++ l₂) h2
    exact ⟨l₁.length :: cs, by simp [mapRange, hcs, insertAt_length_append]⟩

theorem foldl_append_keys {β : Type} (l : List (String × β)) (acc : List String) :
    l.foldl (fun keys kv => keys ++ [kv.1]) acc = acc ++ l.map Prod.fst := by
  induction l generalizing acc with
  | nil => simp
  | cons a l ih => simp [ih]

theorem ChildrenMap_of_mapping (g : Option Container) (mmap : List (String × Data))
    (h : Container.Data g = Data.mapping mmap) :
    Container.ChildrenMap g = mmap.map (fun kv => (kv.1, some ⟨kv.2⟩)) := by
  simp [Container.ChildrenMap, h]

theorem Struct_of_mapping (order : RangeOrder) (v : value) (mmap : List (String × Data))
    (h : Container.Data v.result = Data.mapping mmap) :
    v.Struct order = .ok
      { offset := -1
        keys := (mapRange order (mmap.map (fun kv => (kv.1, some (Container.mk kv.2))))).map
          Prod.fst
        data := mmap.map (fun kv => (kv.1, some ⟨kv.2⟩)) } := by
  simp [value.Struct, h, ChildrenMap_of_mapping v.result mmap h, foldl_append_keys]

theorem Struct_of_not_mapping (order : RangeOrder) (v : value)
    (h : ∀ mmap, Container.Data v.result ≠ Data.mapping mmap) :
    ∃ err, v.Struct order = .error err := by
  unfold value.Struct
  cases hd : Container.Data v.result with
  | mapping mmap => exact absurd hd (h mmap)
  | nil => exact ⟨_, rfl⟩
  | slice a => exact ⟨_, rfl⟩
  | other t => exact ⟨_, rfl⟩

theorem structIterator.drain_from (fuel i : Nat) (s : structIterator)
    (ho : s.offset = (i : Int) - 1) (hi : i ≤ s.keys.length) (hf : s.keys.length - i < fuel) :
    s.drain fuel
      = some ((s.keys.drop i).map (fun k => (k, { result := mapIndex s.data k }))) := by
  induction fuel generalizing i s with
  | zero => omega
  | succ fuel ih =>
    by_cases hlt : i < s.keys.length
    · have hn : s.Next = (true, { s with offset := s.offset + 1 }) := by
        have : ¬ s.offset ≥ (s.keys.length : Int) - 1 := by omega
        simp [structIterator.Next, this]
      have ho1 : s.offset + 1 = (i : Int) := by omega
      have hl : structIterator.Label { s with offset := s.offset + 1 } = some s.keys[i] := by
        simp [structIterator.Label, ho1, sliceIndex_natCast, List.getElem?_eq_getElem hlt]
      have hv : structIterator.Value { s with offset := s.offset + 1 }
          = some { result := mapIndex s.data s.keys[i] } := by
        simp [structIterator.Value, ho1, sliceIndex_natCast, List.getElem?_eq_getElem hlt]
      have hrec := ih (i + 1) { s with offset := s.offset + 1 }
        (by simp only; push_cast; omega) (by simpa using hlt) (by simp only; omega)
      simp only [structIterator.drain, hn, hl, hv, hrec]
      rw [List.drop_eq_getElem_cons hlt]
      rfl
    · have hn : s.Next = (false, s) := by
        have : s.offset ≥ (s.keys.length : Int) - 1 := by omega
        simp [structIterator.Next, this]
      have hdrop : s.keys.drop i = [] := List.drop_eq_nil_of_le (by omega)
      simp [structIterator.drain, hn, hdrop]

theorem lookup_map_wrap (mmap : List (String × Data)) (k : String) :
    (mmap.map (fun kv => (kv.1, some (Container.mk kv.2)))).lookup k
      = (mmap.lookup k).map (fun d => some ⟨d⟩) := by
  induction mmap with
  | nil => simp
  | cons a l ih =>
    obtain ⟨a1, a2⟩ := a
    simp only [List.map_cons, List.lookup_cons]
    cases hk : (k == a1) <;> simp [ih]

theorem lookup_isSome_of_mem_keys (mmap : List (String × Data)) (k : String)
    (h : k ∈ mmap.map Prod.fst) : ∃ d, mmap.lookup k = some d := by
  induction mmap with
  | nil => simp at h
  | cons a l ih =>
    obtain ⟨a1, a2⟩ := a
    simp only [List.lookup_cons]
    cases hk : (k == a1) with
    | true => exact ⟨a2, rfl⟩
    | false =>
      simp only [List.map_cons, List.mem_cons] at h
      rcases h with h | h
      · simp [h] at hk
      · exact ih h

/-- C3: `Struct()` returns an error when the data is not a string-keyed
generic mapping and succeeds when it is; the iterator, stepped with `Next()`
until it answers false, yields labels that are a permutation of the keys of
the mapping, without duplicates, and at each step `Value()` wraps the child
stored under the key that `Label()` returns. This holds for every order the
`range` loop may choose. -/
theorem Struct_visits_every_key_once (order : RangeOrder) (v : value) :
    ((Container.Data v.result).TypeOf ≠ some genericMap →
      ∃ err, v.Struct order = .error err) ∧
    (∀ mmap, Container.Data v.result = Data.mapping mmap →
      ∃ it, v.Struct order = .ok it ∧
        ∀ fuel, mmap.length < fuel → ∃ visits, it.drain fuel = some visits ∧
          (visits.map Prod.fst).Perm (mmap.map Prod.fst) ∧
          ((mmap.map Prod.fst).Nodup → (visits.map Prod.fst).Nodup) ∧
          ∀ k w, (k, w) ∈ visits →
            ∃ d, mmap.lookup k = some d ∧ w = { result := some ⟨d⟩ }) := by
  refine ⟨fun hT => Struct_of_not_mapping order v
    (fun mmap hm => hT (by rw [hm]; rfl)), ?_⟩
  intro mmap h
  refine ⟨_, Struct_of_mapping order v mmap h, ?_⟩
  intro fuel hfuel
  have hperm : ((mapRange order (mmap.map (fun kv => (kv.1, some (Container.mk kv.2))))).map
      Prod.fst).Perm (mmap.map Prod.fst) := by
    have := (mapRange_perm order (mmap.map (fun kv => (kv.1, some (Container.mk kv.2))))).map
      Prod.fst
    simpa [Function.comp_def] using this
  have hlen := hperm.length_eq
  simp only [List.length_map] at hlen
  refine ⟨_, structIterator.drain_from fuel 0 _ (by simp) (by simp) ?_, ?_, ?_, ?_⟩
  · simp only [List.length_map, hlen]
    omega
  · simpa [Function.comp_def] using hperm
  · intro hnd
    have : ((mapRange order (mmap.map (fun kv => (kv.1, some (Container.mk kv.2))))).map
        Prod.fst).Nodup := hperm.nodup_iff.2 hnd
    simpa [Function.comp_def] using this
  · intro k w hkw
    rw [List.drop_zero, List.mem_map] at hkw
    obtain ⟨k0, hk0, hkw⟩ := hkw
    simp only [Prod.mk.injEq] at hkw
    obtain ⟨rfl, rfl⟩ := hkw
    obtain ⟨d, hd⟩ := lookup_isSome_of_mem_keys mmap k0 (hperm.subset hk0)
    refine ⟨d, hd, ?_⟩
    simp [mapIndex, lookup_map_wrap, hd]

/-- C3 at the mapping with keys "a" and "b", visited in the order "b", "a". -/
theorem Struct_visits_every_key_once_witness :
    Container.Data (NewJsonValue
        (some ⟨Data.mapping [("a", Data.nil), ("b", Data.other GoType.int)]⟩)).result
      = Data.mapping [("a", Data.nil), ("b", Data.other GoType.int)] ∧
    ∃ it, (NewJsonValue
        (some ⟨Data.mapping [("a", Data.nil), ("b", Data.other GoType.int)]⟩)).Struct [1]
          = .ok it ∧
      ∀ fuel, [("a", Data.nil), ("b", Data.other GoType.int)].length < fuel →
        ∃ visits, it.drain fuel = some visits ∧
          (visits.map Prod.fst).Perm
            ([("a", Data.nil), ("b", Data.other GoType.int)].map Prod.fst) ∧
          (([("a", Data.nil), ("b", Data.other GoType.int)].map Prod.fst).Nodup →
            (visits.map Prod.fst).Nodup) ∧
          ∀ k w, (k, w) ∈ visits →
            ∃ d, [("a", Data.nil), ("b", Data.other GoType.int)].lookup k = some d ∧
              w = { result := some ⟨d⟩ } :=
  ⟨rfl, (Struct_visits_every_key_once [1] _).2 _ rfl⟩

/-- Over an empty sequence no `Next()` succeeds and `Value()` panics (its index
stays at -1): there is no child to wrap. -/
theorem List_iterator_empty_Value_panics (v : value)
    (h : Container.Data v.result = Data.slice []) :
    ∃ it, v.List = .ok it ∧ ∀ k : Nat,
      (it.advance k).Next.1 = false ∧ (it.advance k).Value = none := by
  refine ⟨_, List_of_slice v [] h, ?_⟩
  intro k
  obtain ⟨hd, ho⟩ := listIterator.fresh_advance
    (([] : List Data).map (fun obj => some (Container.mk obj))) k
  constructor
  · rw [listIterator.Next_fst, hd, ho]
    simp only [List.map_nil, List.length_nil, min_def, decide_eq_false_iff_not]
    split <;> omega
  · rw [listIterator.Value, hd, ho]
    simp only [List.map_nil, List.length_nil, min_def]
    have : (if (k : Int) - 1 ≤ ((0 : Nat) : Int) - 1 then (k : Int) - 1
        else ((0 : Nat) : Int) - 1) < 0 := by split <;> omega
    simp [sliceIndex, this]

/-- C10 at the sequence `[nil, int]`. -/
theorem List_iterator_value_in_range_witness :
    Container.Data (NewJsonValue
        (some ⟨Data.slice [Data.nil, Data.other GoType.int]⟩)).result
      = Data.slice [Data.nil, Data.other GoType.int] ∧
    ∃ it, (NewJsonValue (some ⟨Data.slice [Data.nil, Data.other GoType.int]⟩)).List = .ok it ∧
      ∀ k : Nat,
      (-1 ≤ (it.advance k).offset ∧
        (it.advance k).offset ≤ (([Data.nil, Data.other GoType.int].length : Nat) : Int) - 1) ∧
      ((∃ j, j < k ∧ (it.advance j).Next.1 = true) → ∃ w, (it.advance k).Value = some w) ∧
      (∀ c, 1 ≤ k → [Data.nil, Data.other GoType.int][k - 1]? = some c →
        (it.advance k).Value = some { result := some ⟨c⟩ }) ∧
      (∀ c, [Data.nil, Data.other GoType.int].length < k →
        [Data.nil, Data.other GoType.int][[Data.nil, Data.other GoType.int].length - 1]?
          = some c →
        (it.advance (k - 1)).Next.1 = false ∧
        (it.advance k).Value = some { result := some ⟨c⟩ }) :=
  ⟨rfl, List_iterator_value_in_range _ _ rfl⟩

/-! ## Kind -/

/-- The call `dataType.Elem()` in `Kind()` is made on slice and array kinds
only, where `reflect` does not panic. -/
theorem GoType.Elem_defined (t : GoType) (h : t.Kind ∈ [ReflectKind.Slice, .Array]) :
    ∃ e, t.Elem = some e := by
  induction t with
  | array n e _ => exact ⟨e, rfl⟩
  | slice e _ => exact ⟨e, rfl⟩
  | named n u ih => exact ih h
  | _ => simp [GoType.Kind] at h

/-- C7: `Kind()` depends on the dynamic type of the data only, and is
`NullKind` for nil, `StringKind` for strings, `BoolKind` for bools, `NumberKind`
for the integer kinds (uintptr included), `DecimalKind` for floats and
complex numbers, `StructKind` for structs and maps, `BytesKind` for slices and
arrays whose element type is byte, `ListKind` for other slices and arrays,
`UndefinedKind` for functions, channels, pointers, unsafe pointers, interfaces
and the invalid kind; the element type it asks for on slices and arrays exists,
so no case panics. -/
theorem Kind_classification (v : value) :
    (∀ w : value, (Container.Data w.result).TypeOf = (Container.Data v.result).TypeOf →
        w.Kind = v.Kind) ∧
    ((Container.Data v.result).TypeOf = none → v.Kind = Kind.NullKind) ∧
    (∀ t, (Container.Data v.result).TypeOf = some t →
      (t.Kind = .String → v.Kind = Kind.StringKind) ∧
      (t.Kind = .Bool → v.Kind = Kind.BoolKind) ∧
      (t.Kind ∈ [ReflectKind.Int, .Int8, .Int16, .Int32, .Int64,
          .Uint, .Uint8, .Uint16, .Uint32, .Uint64, .Uintptr] → v.Kind = Kind.NumberKind) ∧
      (t.Kind ∈ [ReflectKind.Float32, .Float64, .Complex64, .Complex128] →
        v.Kind = Kind.DecimalKind) ∧
      (t.Kind ∈ [ReflectKind.Struct, .Map] → v.Kind = Kind.StructKind) ∧
      (t.Kind ∈ [ReflectKind.Slice, .Array] → ∃ e, t.Elem = some e) ∧
      (t.Kind ∈ [ReflectKind.Slice, .Array] → t.Elem = some GoType.uint8 →
        v.Kind = Kind.BytesKind) ∧
      (t.Kind ∈ [ReflectKind.Slice, .Array] → t.Elem ≠ some GoType.uint8 →
        v.Kind = Kind.ListKind) ∧
      (t.Kind ∈ [ReflectKind.Func, .Chan, .Pointer, .UnsafePointer, .Interface, .Invalid] →
        v.Kind = Kind.UndefinedKind)) := by
  refine ⟨?_, ?_, ?_⟩
  · intro w h
    simp only [value.Kind, value.Interface, h]
  · intro h
    simp only [value.Kind, value.Interface, h]
  · intro t h
    refine ⟨?_, ?_, ?_, ?_, ?_, GoType.Elem_defined t, ?_, ?_, ?_⟩
    · intro hk
      simp only [value.Kind, value.Interface, h, hk]
    · intro hk
      simp only [value.Kind, value.Interface, h, hk]
    · intro hk
      simp only [List.mem_cons, List.mem_singleton, List.not_mem_nil, or_false] at hk
      rcases hk with hk | hk | hk | hk | hk | hk | hk | hk | hk | hk | hk <;>
        simp only [value.Kind, value.Interface, h, hk]
    · intro hk
      simp only [List.mem_cons, List.mem_singleton, List.not_mem_nil, or_false] at hk
      rcases hk with hk | hk | hk | hk <;> simp only [value.Kind, value.Interface, h, hk]
    · intro hk
      simp only [List.mem_cons, List.mem_singleton, List.not_mem_nil, or_false] at hk
      rcases hk with hk | hk <;> simp only [value.Kind, value.Interface, h, hk]
    · intro hk he
      simp only [List.mem_cons, List.mem_singleton, List.not_mem_nil, or_false] at hk
      rcases hk with hk | hk <;> simp [value.Kind, value.Interface, h, hk, he]
    · intro hk he
      simp only [List.mem_cons, List.mem_singleton, List.not_mem_nil, or_false] at hk
      rcases hk with hk | hk <;> simp [value.Kind, value.Interface, h, hk, he]
    · intro hk
      simp only [List.mem_cons, List.mem_singleton, List.not_mem_nil, or_false] at hk
      rcases hk with hk | hk | hk | hk | hk | hk <;>
        simp only [value.Kind, value.Interface, h, hk]

/-- C7 at concrete data: a nil node, a `[]byte`, a `[3]string`, a pointer. -/
theorem Kind_classification_witness :
    (NewJsonValue none).Kind = Kind.NullKind ∧
    (NewJsonValue (some ⟨Data.other (.slice .uint8)⟩)).Kind = Kind.BytesKind ∧
    (NewJsonValue (some ⟨Data.other (.array 3 .string)⟩)).Kind = Kind.ListKind ∧
    (NewJsonValue (some ⟨Data.other (.pointer .int)⟩)).Kind = Kind.UndefinedKind :=
  ⟨(Kind_classification (NewJsonValue none)).2.1 rfl,
   ((Kind_classification (NewJsonValue (some ⟨Data.other (.slice .uint8)⟩))).2.2
      (.slice .uint8) rfl).2.2.2.2.2.2.1 (by decide) rfl,
   ((Kind_classification (NewJsonValue (some ⟨Data.other (.array 3 .string)⟩))).2.2
      (.array 3 .string) rfl).2.2.2.2.2.2.2.1 (by decide) (by decide),
   ((Kind_classification (NewJsonValue (some ⟨Data.other (.pointer .int)⟩))).2.2
      (.pointer .int) rfl).2.2.2.2.2.2.2.2 (by decide)⟩

theorem Kind_of_slice (v : value) (array : List Data)
    (h : Container.Data v.result = Data.slice array) : v.Kind = Kind.ListKind := by
  simp [value.Kind, value.Interface, h, Data.TypeOf, genericSlice, GoType.Kind, GoType.Elem,
    emptyInterface]

theorem Kind_of_mapping (v : value) (mmap : List (String × Data))
    (h : Container.Data v.result = Data.mapping mmap) : v.Kind = Kind.StructKind := by
  simp [value.Kind, value.Interface, h, Data.TypeOf, genericMap, GoType.Kind]

/-- C5 as stated fails: over a `[]string`, `Kind()` is `ListKind` and `List()`
returns an error. -/
theorem Kind_List_but_List_fails :
    stringSliceValue.Kind = Kind.ListKind ∧
    stringSliceValue.List = .error (.errorString "unsupported iterator type `[]string`") := by
  constructor
  · decide
  · rfl

/-- C5, amended: whenever `Kind()` is `ListKind`, `Struct()` returns an error
and `List()` succeeds exactly when the data is a `[]interface{}`; and every
value whose data is a `[]interface{}` has kind `ListKind`. -/
theorem Kind_List_consistency (order : RangeOrder) (v : value) :
    (v.Kind = Kind.ListKind →
      (∃ err, v.Struct order = .error err) ∧
      ((∃ it, v.List = .ok it) ↔ ∃ array, Container.Data v.result = Data.slice array)) ∧
    (∀ array, Container.Data v.result = Data.slice array →
      v.Kind = Kind.ListKind ∧ ∃ it, v.List = .ok it) := by
  constructor
  · intro hk
    constructor
    · apply Struct_of_not_mapping
      intro mmap hm
      rw [Kind_of_mapping v mmap hm] at hk
      exact absurd hk (by decide)
    · constructor
      · rintro ⟨it, hit⟩
        cases hd : Container.Data v.result with
        | slice array => exact ⟨array, rfl⟩
        | nil => simp [value.List, hd] at hit
        | mapping m => simp [value.List, hd] at hit
        | other t => simp [value.List, hd] at hit
      · rintro ⟨array, ha⟩
        exact ⟨_, List_of_slice v array ha⟩
  · intro array ha
    exact ⟨Kind_of_slice v array ha, _, List_of_slice v array ha⟩

/-- C5, amended, at the sequence `[nil]`. -/
theorem Kind_List_consistency_witness :
    (NewJsonValue (some ⟨Data.slice [Data.nil]⟩)).Kind = Kind.ListKind ∧
    (∃ err, (NewJsonValue (some ⟨Data.slice [Data.nil]⟩)).Struct [] = .error err) ∧
    ((∃ it, (NewJsonValue (some ⟨Data.slice [Data.nil]⟩)).List = .ok it) ↔
      ∃ array, Container.Data (NewJsonValue (some ⟨Data.slice [Data.nil]⟩)).result
        = Data.slice array) :=
  ⟨((Kind_List_consistency [] (NewJsonValue (some ⟨Data.slice [Data.nil]⟩))).2
      [Data.nil] rfl).1,
   (Kind_List_consistency [] (NewJsonValue (some ⟨Data.slice [Data.nil]⟩))).1
     ((Kind_List_consistency [] (NewJsonValue (some ⟨Data.slice [Data.nil]⟩))).2
      [Data.nil] rfl).1⟩

/-! ## Decode -/

theorem stripBypass_of_not_bypass (ctx : Context) (h : ∀ e, ctx ≠ Context.ctxBypass e) :
    stripBypass ctx = ctx := by
  cases ctx with
  | ctxBypass e => exact absurd rfl (h e)
  | Background => rfl
  | TODO => rfl
  | custom id => rfl

theorem position_annotation (msg : String) :
    msg ++ ": (position: " ++ "unsupported operation" ++ ")"
      = msg ++ ": (position: unsupported operation)" := by
  rw [String.append_assoc, String.append_assoc]
  rfl

/-- The `Decoder` branch: the state and the answer of `decoder.Decode(v)`, the
error wrapped with the position. -/
theorem DecodeWithCtx_of_Decoder {σ : Type} (yaml : YamlEngine σ) (v : value) (ctx : Context)
    (target : Target σ) (w : σ) (d : value → σ → σ × Option GoError)
    (h : target.Decoder = some d) :
    v.DecodeWithCtx yaml ctx target w
      = ((d v w).1, (d v w).2.map (fun err => errorfPosition err v.Ref)) := by
  simp only [value.DecodeWithCtx, h]
  generalize d v w = r
  obtain ⟨w1, _ | err⟩ := r <;> rfl

/-- The `CtxDecoder` branch: the state and the answer of `decoder.Decode(ctx, v)`
on the context stripped of the `ctxBypass` wrapper. -/
theorem DecodeWithCtx_of_CtxDecoder {σ : Type} (yaml : YamlEngine σ) (v : value)
    (ctx : Context) (target : Target σ) (w : σ) (d : Context → value → σ → σ × Option GoError)
    (h : target.Decoder = none) (hd : target.CtxDecoder = some d) :
    v.DecodeWithCtx yaml ctx target w
      = ((d (stripBypass ctx) v w).1,
         (d (stripBypass ctx) v w).2.map (fun err => errorfPosition err v.Ref)) := by
  simp only [value.DecodeWithCtx, h, hd]
  generalize d (stripBypass ctx) v w = r
  obtain ⟨w1, _ | err⟩ := r <;> rfl

/-- The `CtxConfigDecoder` branch: the state and the answer of
`decoder.DecodeConfig(ctx, v)` on the context stripped of the `ctxBypass` wrapper. -/
theorem DecodeWithCtx_of_CtxConfigDecoder {σ : Type} (yaml : YamlEngine σ) (v : value)
    (ctx : Context) (target : Target σ) (w : σ) (d : Context → value → σ → σ × Option GoError)
    (h : target.Decoder = none) (h2 : target.CtxDecoder = none)
    (hd : target.CtxConfigDecoder = some d) :
    v.DecodeWithCtx yaml ctx target w
      = ((d (stripBypass ctx) v w).1,
         (d (stripBypass ctx) v w).2.map (fun err => errorfPosition err v.Ref)) := by
  simp only [value.DecodeWithCtx, h, h2, hd]
  generalize d (stripBypass ctx) v w = r
  obtain ⟨w1, _ | err⟩ := r <;> rfl

/-- The generic branch: marshal the node; a marshalling error is wrapped with the
position, otherwise the result of `yaml.Unmarshal` on the bytes and the target
is returned as it is. -/
theorem DecodeWithCtx_of_no_capability {σ : Type} (yaml : YamlEngine σ) (v : value)
    (ctx : Context) (target : Target σ) (w : σ)
    (h : target.Decoder = none) (h2 : target.CtxDecoder = none)
    (h3 : target.CtxConfigDecoder = none) :
    (∀ w1 err, yaml.MarshalYAML v.result w = (w1, .error err) →
      v.DecodeWithCtx yaml ctx target w = (w1, some (errorfPosition err v.Ref))) ∧
    (∀ w1 jBytes, yaml.MarshalYAML v.result w = (w1, .ok jBytes) →
      v.DecodeWithCtx yaml ctx target w = yaml.Unmarshal jBytes target w1) := by
  constructor
  · intro w1 err hm
    simp only [value.DecodeWithCtx, h, h2, h3, hm]
  · intro w1 jBytes hm
    simp only [value.DecodeWithCtx, h, h2, h3, hm]

/-- C2: a target with the plain self-decode capability `d` makes
`DecodeWithCtx`, and so `Decode`, return exactly the state and the answer of
`d(v)` (the error wrapped with the position), whatever else the target
implements and whatever the engine is: nothing else is invoked; a target
with `CtxDecoder` and without `Decoder` gets exactly the context-aware
`Decode(ctx, v)`, whether or not it implements `CtxConfigDecoder`; a target
with none of the three capabilities gets the generic branch (marshal, then
`yaml.Unmarshal` into the target); and the outcome depends on the YAML engine
if and only if the target implements none of the three capabilities. -/
theorem DecodeWithCtx_dispatch_priority {σ : Type} (yaml : YamlEngine σ) (v : value)
    (ctx : Context) (target : Target σ) (w : σ) :
    (∀ d, target.Decoder = some d →
      v.DecodeWithCtx yaml ctx target w
        = ((d v w).1, (d v w).2.map (fun err => errorfPosition err v.Ref)) ∧
      v.Decode yaml target w
        = ((d v w).1, (d v w).2.map (fun err => errorfPosition err v.Ref))) ∧
    (target.Decoder = none → ∀ d, target.CtxDecoder = some d →
      v.DecodeWithCtx yaml ctx target w
        = ((d (stripBypass ctx) v w).1,
           (d (stripBypass ctx) v w).2.map (fun err => errorfPosition err v.Ref))) ∧
    (target.Decoder = none → target.CtxDecoder = none → target.CtxConfigDecoder = none →
      (∀ w1 err, yaml.MarshalYAML v.result w = (w1, .error err) →
        v.DecodeWithCtx yaml ctx target w = (w1, some (errorfPosition err v.Ref))) ∧
      (∀ w1 jBytes, yaml.MarshalYAML v.result w = (w1, .ok jBytes) →
        v.DecodeWithCtx yaml ctx target w = yaml.Unmarshal jBytes target w1)) ∧
    ((target.Decoder = none ∧ target.CtxDecoder = none ∧ target.CtxConfigDecoder = none) ↔
      ∃ yaml1 yaml2 : YamlEngine σ,
        v.DecodeWithCtx yaml1 ctx target w ≠ v.DecodeWithCtx yaml2 ctx target w) := by
  refine ⟨?_, ?_, ?_, ?_, ?_⟩
  · intro d hd
    exact ⟨DecodeWithCtx_of_Decoder yaml v ctx target w d hd,
      DecodeWithCtx_of_Decoder yaml v _ target w d hd⟩
  · intro h d hd
    exact DecodeWithCtx_of_CtxDecoder yaml v ctx target w d h hd
  · intro h h2 h3
    exact DecodeWithCtx_of_no_capability yaml v ctx target w h h2 h3
  · rintro ⟨h, h2, h3⟩
    refine ⟨
      { MarshalYAML := fun _ w0 => (w0, .error (.errorString "marshal"))
        Unmarshal := fun _ _ w0 => (w0, none)
        ParseYAML := fun _ w0 => (w0, .error (.errorString "parse")) },
      { MarshalYAML := fun _ w0 => (w0, .ok [])
        Unmarshal := fun _ _ w0 => (w0, none)
        ParseYAML := fun _ w0 => (w0, .error (.errorString "parse")) }, ?_⟩
    simp [value.DecodeWithCtx, h, h2, h3]
  · rintro ⟨yaml1, yaml2, hne⟩
    by_contra hnot
    apply hne
    cases h : target.Decoder with
    | some d =>
      rw [DecodeWithCtx_of_Decoder yaml1 v ctx target w d h,
        DecodeWithCtx_of_Decoder yaml2 v ctx target w d h]
    | none =>
      cases h2 : target.CtxDecoder with
      | some d =>
        rw [DecodeWithCtx_of_CtxDecoder yaml1 v ctx target w d h h2,
          DecodeWithCtx_of_CtxDecoder yaml2 v ctx target w d h h2]
      | none =>
        cases h3 : target.CtxConfigDecoder with
        | some d =>
          rw [DecodeWithCtx_of_CtxConfigDecoder yaml1 v ctx target w d h h2 h3,
            DecodeWithCtx_of_CtxConfigDecoder yaml2 v ctx target w d h h2 h3]
        | none => exact absurd ⟨h, h2, h3⟩ hnot

/-- C2 at a target implementing both `Decoder` and `CtxConfigDecoder`, whose
methods note down the calls they receive: the only call noted is `Decode(v)`,
and the answer is the one of `Decoder`. -/
theorem DecodeWithCtx_dispatch_priority_witness :
    plainAndConfigTarget.Decoder = some (fun v w => (w ++ [Call.Decode v], none)) ∧
    scalarValue.DecodeWithCtx failingUnmarshal (Context.custom 7) plainAndConfigTarget []
      = ([Call.Decode scalarValue], none) ∧
    scalarValue.Decode failingUnmarshal plainAndConfigTarget []
      = ([Call.Decode scalarValue], none) :=
  ⟨rfl, (DecodeWithCtx_dispatch_priority failingUnmarshal scalarValue (Context.custom 7)
    plainAndConfigTarget []).1 (fun v w => (w ++ [Call.Decode v], none)) rfl⟩

/-- Every error of `DecodeWithCtx` carries the position annotation around the
error it wraps, except an error of `yaml.Unmarshal`, which is returned as it is. -/
theorem DecodeWithCtx_error_annotated_or_unmarshal {σ : Type} (yaml : YamlEngine σ)
    (v : value) (ctx : Context) (target : Target σ) (w : σ) (e : GoError)
    (h : (v.DecodeWithCtx yaml ctx target w).2 = some e) :
    (∃ inner, annotated e inner = true) ∨
    (∃ jBytes w1, (yaml.Unmarshal jBytes target w1).2 = some e) := by
  have wrapped : ∀ r : Option GoError,
      r.map (fun err => errorfPosition err v.Ref) = some e →
      ∃ inner, annotated e inner = true := by
    intro r hr
    cases r with
    | none => simp at hr
    | some err =>
      simp only [Option.map_some', Option.some.injEq] at hr
      exact ⟨err, by simp [annotated, ← hr, errorfPosition, value.Ref, position_annotation]⟩
  cases h1 : target.Decoder with
  | some d =>
    rw [DecodeWithCtx_of_Decoder yaml v ctx target w d h1] at h
    exact Or.inl (wrapped _ h)
  | none =>
    cases h2 : target.CtxDecoder with
    | some d =>
      rw [DecodeWithCtx_of_CtxDecoder yaml v ctx target w d h1 h2] at h
      exact Or.inl (wrapped _ h)
    | none =>
      cases h3 : target.CtxConfigDecoder with
      | some d =>
        rw [DecodeWithCtx_of_CtxConfigDecoder yaml v ctx target w d h1 h2 h3] at h
        exact Or.inl (wrapped _ h)
      | none =>
        obtain ⟨hE, hO⟩ := DecodeWithCtx_of_no_capability yaml v ctx target w h1 h2 h3
        cases hm : yaml.MarshalYAML v.result w with
        | mk w1 r =>
          cases r with
          | error err =>
            rw [hE w1 err hm] at h
            exact Or.inl (wrapped (some err) h)
          | ok jBytes =>
            rw [hO w1 jBytes hm] at h
            exact Or.inr ⟨jBytes, w1, h⟩

/-- C6 fails on the generic branch: decoding the scalar `"x"` into a target
without capabilities, with `yaml.Unmarshal` failing, returns the error of
`yaml.Unmarshal` itself, which wraps nothing and carries no position
annotation. -/
theorem Decode_unmarshal_error_not_annotated :
    (scalarValue.Decode failingUnmarshal plainTarget []).2 = some unmarshalError ∧
    (scalarValue.DecodeWithCtx failingUnmarshal Context.Background plainTarget []).2
      = some unmarshalError ∧
    unmarshalError.Unwrap = none ∧
    (∀ inner, annotated unmarshalError inner = false) ∧
    (scalarValue.Decode failingUnmarshal plainTarget []).1
      = [Call.MarshalYAML scalarValue.result, Call.Unmarshal [120, 10]] := by
  refine ⟨rfl, rfl, rfl, ?_, rfl⟩
  intro inner
  simp [annotated, unmarshalError]

/-- C8: `Decode(target)` leaves the same state and returns the same error as
`DecodeWithCtx(context.Background(), target)`; from `Decode`, the
context-aware `Decode` or `DecodeConfig` of the target is applied to the
background context itself, not to the `ctxBypass` wrapper; and from
`DecodeWithCtx` with a context that is not the wrapper, it is applied to that
very context. -/
theorem Decode_eq_DecodeWithCtx_Background {σ : Type} (yaml : YamlEngine σ) (v : value)
    (target : Target σ) (w : σ) :
    v.Decode yaml target w = v.DecodeWithCtx yaml Context.Background target w ∧
    (target.Decoder = none → ∀ d, target.CtxDecoder = some d →
      v.Decode yaml target w
        = ((d Context.Background v w).1,
           (d Context.Background v w).2.map (fun err => errorfPosition err v.Ref))) ∧
    (target.Decoder = none → target.CtxDecoder = none →
      ∀ d, target.CtxConfigDecoder = some d →
        v.Decode yaml target w
          = ((d Context.Background v w).1,
             (d Context.Background v w).2.map (fun err => errorfPosition err v.Ref))) ∧
    (∀ ctx, (∀ e, ctx ≠ Context.ctxBypass e) →
      (target.Decoder = none → ∀ d, target.CtxDecoder = some d →
        v.DecodeWithCtx yaml ctx target w
          = ((d ctx v w).1, (d ctx v w).2.map (fun err => errorfPosition err v.Ref))) ∧
      (target.Decoder = none → target.CtxDecoder = none →
        ∀ d, target.CtxConfigDecoder = some d →
          v.DecodeWithCtx yaml ctx target w
            = ((d ctx v w).1, (d ctx v w).2.map (fun err => errorfPosition err v.Ref)))) := by
  refine ⟨?_, ?_, ?_, ?_⟩
  · cases h : target.Decoder with
    | some d =>
      rw [value.Decode, DecodeWithCtx_of_Decoder yaml v _ target w d h,
        DecodeWithCtx_of_Decoder yaml v _ target w d h]
    | none =>
      cases h2 : target.CtxDecoder with
      | some d =>
        rw [value.Decode, DecodeWithCtx_of_CtxDecoder yaml v _ target w d h h2,
          DecodeWithCtx_of_CtxDecoder yaml v _ target w d h h2]
        rfl
      | none =>
        cases h3 : target.CtxConfigDecoder with
        | some d =>
          rw [value.Decode, DecodeWithCtx_of_CtxConfigDecoder yaml v _ target w d h h2 h3,
            DecodeWithCtx_of_CtxConfigDecoder yaml v _ target w d h h2 h3]
          rfl
        | none =>
          simp only [value.Decode, value.DecodeWithCtx, h, h2, h3]
  · intro h d hd
    exact DecodeWithCtx_of_CtxDecoder yaml v (Context.ctxBypass Context.Background)
      target w d h hd
  · intro h h2 d hd
    exact DecodeWithCtx_of_CtxConfigDecoder yaml v (Context.ctxBypass Context.Background)
      target w d h h2 hd
  · intro ctx hctx
    have hs := stripBypass_of_not_bypass ctx hctx
    constructor
    · intro h d hd
      have := DecodeWithCtx_of_CtxDecoder yaml v ctx target w d h hd
      rwa [hs] at this
    · intro h h2 d hd
      have := DecodeWithCtx_of_CtxConfigDecoder yaml v ctx target w d h h2 hd
      rwa [hs] at this

/-- C8 at a target with the context-aware capability only, whose method notes
down the context it receives: from `Decode` it is the background context,
from `DecodeWithCtx` with the caller's context 7 it is that context. -/
theorem Decode_eq_DecodeWithCtx_Background_witness :
    scalarValue.Decode failingUnmarshal ctxTarget []
      = ([Call.CtxDecode Context.Background scalarValue], none) ∧
    scalarValue.DecodeWithCtx failingUnmarshal (Context.custom 7) ctxTarget []
      = ([Call.CtxDecode (Context.custom 7) scalarValue], none) :=
  ⟨(Decode_eq_DecodeWithCtx_Background failingUnmarshal scalarValue ctxTarget []).2.1 rfl
      (fun ctx v w => (w ++ [Call.CtxDecode ctx v], none)) rfl,
   ((Decode_eq_DecodeWithCtx_Background failingUnmarshal scalarValue ctxTarget []).2.2.2
      (Context.custom 7) (fun _ h => Context.noConfusion h)).1 rfl
      (fun ctx v w => (w ++ [Call.CtxDecode ctx v], none)) rfl⟩

/-! ## Loader -/

theorem errorsIs_self (e : GoError) : errorsIs e e = true := by
  cases e <;> simp [errorsIs]

theorem lookup_eq_none_of_not_mem_keys {β : Type} (files : List (String × β)) (path : String)
    (h : path ∉ files.map Prod.fst) : files.lookup path = none := by
  induction files with
  | nil => rfl
  | cons a l ih =>
    obtain ⟨a1, a2⟩ := a
    simp only [List.map_cons, List.mem_cons, not_or] at h
    have hne : (path == a1) = false := by simpa using h.1
    simp only [List.lookup_cons, hne]
    exact ih h.2

/-- C4: when `path` is not a key of the file set, `Load` returns a nil value
and an error on whose `Unwrap` chain `config.ErrPathNotFound` lies
(`errors.Is` holds), whatever the other entries hold; and it leaves the state
as it found it, whatever the parser is and would do: the parser is not
called. -/
theorem Load_absent_path_not_found {σ : Type} (yaml : YamlEngine σ)
    (ErrPathNotFound : GoError) (path : String) (files : List (String × Bytes)) (w : σ)
    (h : path ∉ files.map Prod.fst) :
    (Loader.Load yaml ErrPathNotFound path files w).val = none ∧
    (∃ e, (Loader.Load yaml ErrPathNotFound path files w).err = some e ∧
      errorsIs e ErrPathNotFound = true ∧ e.Unwrap = some ErrPathNotFound) ∧
    (Loader.Load yaml ErrPathNotFound path files w).world = w := by
  have hl := lookup_eq_none_of_not_mem_keys files path h
  simp only [Loader.Load, hl]
  refine ⟨trivial, ⟨_, rfl, ?_, rfl⟩, trivial⟩
  simp [errorfPath, errorsIs, errorsIs_self]

/-- C4 at a file set holding only `b.yaml`, asked for `a.yaml`, with a parser
that notes down every call it receives: it notes none. -/
theorem Load_absent_path_not_found_witness :
    "a.yaml" ∉ [("b.yaml", ([97, 58, 32, 49] : Bytes))].map Prod.fst ∧
    (Loader.Load failingUnmarshal (.errorString "path not found") "a.yaml"
      [("b.yaml", [97, 58, 32, 49])] []).val = none ∧
    (∃ e, (Loader.Load failingUnmarshal (.errorString "path not found") "a.yaml"
        [("b.yaml", [97, 58, 32, 49])] []).err = some e ∧
      errorsIs e (.errorString "path not found") = true ∧
      e.Unwrap = some (.errorString "path not found")) ∧
    (Loader.Load failingUnmarshal (.errorString "path not found") "a.yaml"
      [("b.yaml", [97, 58, 32, 49])] []).world = [] :=
  ⟨by decide, Load_absent_path_not_found failingUnmarshal (.errorString "path not found")
    "a.yaml" [("b.yaml", [97, 58, 32, 49])] [] (by decide)⟩

/-- A present path does reach the parser: the recording parser notes the call
with the content of the file. -/
theorem Load_present_path_is_parsed :
    (Loader.Load failingUnmarshal (.errorString "path not found") "b.yaml"
      [("b.yaml", [97, 58, 32, 49])] []).world = [Call.ParseYAML [97, 58, 32, 49]] := by
  rfl

/-! ## Path pattern -/

theorem Regex.not_matches_NoMatch (s : List Char) : ¬ Regex.Matches .NoMatch s := by
  intro h
  cases h

theorem Regex.matches_EmptyMatch (s : List Char) : Regex.Matches .EmptyMatch s ↔ s = [] := by
  constructor
  · intro h
    cases h
    rfl
  · rintro rfl
    exact .emptyMatch

theorem Regex.matches_Literal (c : Char) (s : List Char) :
    Regex.Matches (.Literal c) s ↔ s = [c] := by
  constructor
  · intro h
    cases h
    rfl
  · rintro rfl
    exact .literal c

theorem Regex.matches_AnyCharNotNL (s : List Char) :
    Regex.Matches .AnyCharNotNL s ↔ ∃ c, c ≠ '\n' ∧ s = [c] := by
  constructor
  · intro h
    cases h with
    | anyCharNotNL c hc => exact ⟨c, hc, rfl⟩
  · rintro ⟨c, hc, rfl⟩
    exact .anyCharNotNL c hc

theorem Regex.matches_Concat (a b : Regex) (s : List Char) :
    Regex.Matches (.Concat a b) s ↔
      ∃ s₁ s₂, s = s₁ ++ s₂ ∧ Regex.Matches a s₁ ∧ Regex.Matches b s₂ := by
  constructor
  · intro h
    cases h with
    | concat h₁ h₂ => exact ⟨_, _, rfl, h₁, h₂⟩
  · rintro ⟨s₁, s₂, rfl, h₁, h₂⟩
    exact .concat h₁ h₂

theorem Regex.matches_Alternate (a b : Regex) (s : List Char) :
    Regex.Matches (.Alternate a b) s ↔ Regex.Matches a s ∨ Regex.Matches b s := by
  constructor
  · intro h
    cases h with
    | alternateLeft _ h => exact Or.inl h
    | alternateRight _ h => exact Or.inr h
  · rintro (h | h)
    · exact .alternateLeft b h
    · exact .alternateRight a h

theorem Regex.matches_Capture (a : Regex) (s : List Char) :
    Regex.Matches (.Capture a) s ↔ Regex.Matches a s := by
  constructor
  · intro h
    cases h with
    | capture h => exact h
  · exact fun h => .capture h

theorem Regex.matches_Star_cons (a : Regex) (c : Char) (s : List Char) :
    Regex.Matches (.Star a) (c :: s) ↔
      ∃ s₁ s₂, s = s₁ ++ s₂ ∧ Regex.Matches a (c :: s₁) ∧ Regex.Matches (.Star a) s₂ := by
  constructor
  · intro h
    generalize hr : Regex.Star a = r at h
    generalize hx : c :: s = x at h
    induction h generalizing s with
    | @starCons a1 u t h₁ h₂ _ ih₂ =>
      cases hr
      cases u with
      | nil => exact ih₂ s rfl (by simpa using hx)
      | cons d u =>
        simp only [List.cons_append, List.cons.injEq] at hx
        obtain ⟨rfl, rfl⟩ := hx
        exact ⟨u, t, rfl, h₁, h₂⟩
    | starNil => cases hx
    | emptyMatch => cases hr
    | literal => cases hr
    | anyCharNotNL => cases hr
    | concat => cases hr
    | alternateLeft => cases hr
    | alternateRight => cases hr
    | capture => cases hr
  · rintro ⟨s₁, s₂, rfl, h₁, h₂⟩
    exact .starCons h₁ h₂

theorem Regex.matches_nil_iff_nullable (r : Regex) :
    Regex.Matches r [] ↔ r.nullable = true := by
  induction r with
  | NoMatch => simp [Regex.not_matches_NoMatch, Regex.nullable]
  | EmptyMatch => simp [Regex.matches_EmptyMatch, Regex.nullable]
  | Literal c => simp [Regex.matches_Literal, Regex.nullable]
  | AnyCharNotNL => simp [Regex.matches_AnyCharNotNL, Regex.nullable]
  | Concat a b iha ihb =>
    simp only [Regex.matches_Concat, Regex.nullable, Bool.and_eq_true, ← iha, ← ihb]
    constructor
    · rintro ⟨s₁, s₂, h, h₁, h₂⟩
      have h' := h.symm
      simp only [List.append_eq_nil] at h'
      obtain ⟨rfl, rfl⟩ := h'
      exact ⟨h₁, h₂⟩
    · rintro ⟨h₁, h₂⟩
      exact ⟨[], [], rfl, h₁, h₂⟩
  | Alternate a b iha ihb =>
    simp only [Regex.matches_Alternate, Regex.nullable, Bool.or_eq_true, iha, ihb]
  | Star a _ =>
    simp only [Regex.nullable, iff_true]
    exact .starNil a
  | Capture a iha =>
    simp only [Regex.matches_Capture, Regex.nullable, iha]

theorem Regex.matches_deriv (r : Regex) (c : Char) (s : List Char) :
    Regex.Matches (r.deriv c) s ↔ Regex.Matches r (c :: s) := by
  induction r generalizing s with
  | NoMatch => simp [Regex.deriv, Regex.not_matches_NoMatch]
  | EmptyMatch => simp [Regex.deriv, Regex.not_matches_NoMatch, Regex.matches_EmptyMatch]
  | Literal d =>
    by_cases h : c = d
    · simp [Regex.deriv, h, Regex.matches_EmptyMatch, Regex.matches_Literal]
    · simp [Regex.deriv, h, Regex.not_matches_NoMatch, Regex.matches_Literal]
  | AnyCharNotNL =>
    by_cases h : c = '\n'
    · simp only [Regex.deriv, h, if_true, Regex.matches_AnyCharNotNL]
      constructor
      · exact fun hm => absurd hm (Regex.not_matches_NoMatch s)
      · rintro ⟨d, hd, he⟩
        simp only [List.cons.injEq] at he
        exact absurd he.1.symm hd
    · simp only [Regex.deriv, h, if_false, Regex.matches_EmptyMatch,
        Regex.matches_AnyCharNotNL]
      constructor
      · rintro rfl
        exact ⟨c, h, rfl⟩
      · rintro ⟨d, _, he⟩
        simp only [List.cons.injEq] at he
        exact he.2
  | Concat a b iha ihb =>
    have key : Regex.Matches (.Concat a b) (c :: s) ↔
        (Regex.Matches a [] ∧ Regex.Matches b (c :: s)) ∨
        ∃ s₁ s₂, s = s₁ ++ s₂ ∧ Regex.Matches a (c :: s₁) ∧ Regex.Matches b s₂ := by
      rw [Regex.matches_Concat]
      constructor
      · rintro ⟨s₁, s₂, h, h₁, h₂⟩
        cases s₁ with
        | nil =>
          simp only [List.nil_append] at h
          subst h
          exact Or.inl ⟨h₁, h₂⟩
        | cons d u =>
          simp only [List.cons_append, List.cons.injEq] at h
          obtain ⟨rfl, rfl⟩ := h
          exact Or.inr ⟨u, s₂, rfl, h₁, h₂⟩
      · rintro (⟨h₁, h₂⟩ | ⟨s₁, s₂, rfl, h₁, h₂⟩)
        · exact ⟨[], c :: s, rfl, h₁, h₂⟩
        · exact ⟨c :: s₁, s₂, rfl, h₁, h₂⟩
    rw [key, Regex.matches_nil_iff_nullable]
    by_cases hn : a.nullable = true
    · have hd : (Regex.Concat a b).deriv c
          = .Alternate (.Concat (a.deriv c) b) (b.deriv c) := by
        simp [Regex.deriv, hn]
      rw [hd, Regex.matches_Alternate, Regex.matches_Concat, ihb]
      simp only [iha, hn, true_and]
      exact or_comm
    · have hd : (Regex.Concat a b).deriv c = .Concat (a.deriv c) b := by
        simp [Regex.deriv, hn]
      rw [hd, Regex.matches_Concat]
      simp only [iha, hn, false_and, false_or, Bool.false_eq_true]
  | Alternate a b iha ihb =>
    simp only [Regex.deriv, Regex.matches_Alternate, iha, ihb]
  | Star a iha =>
    simp only [Regex.deriv, Regex.matches_Concat, iha, Regex.matches_Star_cons]
  | Capture a iha =>
    simp only [Regex.deriv, Regex.matches_Capture, iha]

/-- `matchFrom` answers true exactly when an initial segment of the text is in
the language of the expression. -/
theorem Regex.matchFrom_iff (r : Regex) (s : List Char) :
    r.matchFrom s = true ↔ ∃ s₁ s₂, s = s₁ ++ s₂ ∧ Regex.Matches r s₁ := by
  induction s generalizing r with
  | nil =>
    simp only [Regex.matchFrom, ← Regex.matches_nil_iff_nullable]
    constructor
    · exact fun h => ⟨[], [], rfl, h⟩
    · rintro ⟨s₁, s₂, h, h₁⟩
      have h' := h.symm
      simp only [List.append_eq_nil] at h'
      rw [h'.1] at h₁
      exact h₁
  | cons c cs ih =>
    simp only [Regex.matchFrom, Bool.or_eq_true, ih, Regex.matches_deriv,
      ← Regex.matches_nil_iff_nullable]
    constructor
    · rintro (h | ⟨s₁, s₂, rfl, h₁⟩)
      · exact ⟨[], c :: cs, rfl, h⟩
      · exact ⟨c :: s₁, s₂, rfl, h₁⟩
    · rintro ⟨s₁, s₂, h, h₁⟩
      cases s₁ with
      | nil => exact Or.inl h₁
      | cons d u =>
        simp only [List.cons_append, List.cons.injEq] at h
        obtain ⟨rfl, rfl⟩ := h
        exact Or.inr ⟨u, s₂, rfl, h₁⟩

/-- `MatchString` answers true exactly when some substring of the text is in
the language of the expression. -/
theorem Regex.MatchString_iff (r : Regex) (s : List Char) :
    r.MatchString s = true ↔
      ∃ pre mid post, s = pre ++ mid ++ post ∧ Regex.Matches r mid := by
  induction s with
  | nil =>
    simp only [Regex.MatchString, Regex.matchFrom_iff]
    constructor
    · rintro ⟨s₁, s₂, h, h₁⟩
      exact ⟨[], s₁, s₂, by simpa using h, h₁⟩
    · rintro ⟨pre, mid, post, h, h₁⟩
      have h' := h.symm
      simp only [List.append_eq_nil] at h'
      exact ⟨mid, post, by simp [h'.1.2, h'.2], h₁⟩
  | cons c cs ih =>
    simp only [Regex.MatchString, Bool.or_eq_true, ih, Regex.matchFrom_iff]
    constructor
    · rintro (⟨s₁, s₂, h, h₁⟩ | ⟨pre, mid, post, rfl, h₁⟩)
      · exact ⟨[], s₁, s₂, by simpa using h, h₁⟩
      · exact ⟨c :: pre, mid, post, by simp, h₁⟩
    · rintro ⟨pre, mid, post, h, h₁⟩
      cases pre with
      | nil => exact Or.inl ⟨mid, post, by simpa using h, h₁⟩
      | cons d u =>
        simp only [List.cons_append, List.cons.injEq] at h
        obtain ⟨rfl, rfl⟩ := h
        exact Or.inr ⟨u, mid, post, by simp, h₁⟩

theorem Regex.matches_ofString (w s : List Char) :
    Regex.Matches (Regex.ofString w) s ↔ s = w := by
  induction w generalizing s with
  | nil => simp [Regex.ofString, Regex.matches_EmptyMatch]
  | cons c cs ih =>
    simp only [Regex.ofString, Regex.matches_Concat, Regex.matches_Literal, ih]
    constructor
    · rintro ⟨s₁, s₂, rfl, rfl, rfl⟩
      rfl
    · rintro rfl
      exact ⟨[c], cs, rfl, rfl, rfl⟩

theorem Regex.matches_Star_AnyCharNotNL (s : List Char) :
    Regex.Matches (.Star .AnyCharNotNL) s ↔ ∀ c ∈ s, c ≠ '\n' := by
  induction s with
  | nil =>
    simp only [List.not_mem_nil, false_imp_iff, implies_true, iff_true]
    exact .starNil _
  | cons c cs ih =>
    rw [Regex.matches_Star_cons]
    simp only [Regex.matches_AnyCharNotNL, List.mem_cons, forall_eq_or_imp]
    constructor
    · rintro ⟨s₁, s₂, rfl, ⟨d, hd, he⟩, h₂⟩
      simp only [List.cons.injEq] at he
      obtain ⟨rfl, rfl⟩ := he
      exact ⟨hd, ih.1 (by simpa using h₂)⟩
    · rintro ⟨hc, h₂⟩
      exact ⟨[], cs, rfl, ⟨c, hc, rfl⟩, ih.2 h₂⟩

/-- `PathPattern()` compiles: the pattern parses to `configPathRegexTree`. -/
theorem PathPattern_eq : Loader.PathPattern = some configPathRegexTree := by
  decide

/-- The language of the path pattern: a stem without newline, followed by
`.yaml` or `.yml`. -/
theorem configPathRegexTree_matches (s : List Char) :
    Regex.Matches configPathRegexTree s ↔
      ∃ u, (∀ c ∈ u, c ≠ '\n') ∧ (s = u ++ ".yaml".toList ∨ s = u ++ ".yml".toList) := by
  simp only [configPathRegexTree, Regex.matches_Concat, Regex.matches_Star_AnyCharNotNL,
    Regex.matches_Literal, Regex.matches_Capture, Regex.matches_Alternate,
    Regex.matches_ofString, Regex.matches_EmptyMatch]
  constructor
  · rintro ⟨u, t, rfl, hu, d, w, rfl, rfl, w1, w2, rfl, (rfl | rfl), rfl⟩
    · exact ⟨u, hu, Or.inl rfl⟩
    · exact ⟨u, hu, Or.inr rfl⟩
  · rintro ⟨u, hu, (rfl | rfl)⟩
    · exact ⟨u, _, rfl, hu, ['.'], "yaml".toList, rfl, rfl, "yaml".toList, [], rfl,
        Or.inl rfl, rfl⟩
    · exact ⟨u, _, rfl, hu, ['.'], "yml".toList, rfl, rfl, "yml".toList, [], rfl,
        Or.inr rfl, rfl⟩

/-- What `PathPattern()` accepts under `MatchString`: every path that contains
`.yaml` or `.yml` anywhere, not only at its end. -/
theorem PathPattern_MatchString_iff_contains (path : List Char) :
    (∃ re, Loader.PathPattern = some re ∧ re.MatchString path = true) ↔
      ".yaml".toList <:+: path ∨ ".yml".toList <:+: path := by
  simp only [PathPattern_eq, Option.some.injEq, exists_eq_left', Regex.MatchString_iff,
    configPathRegexTree_matches]
  constructor
  · rintro ⟨pre, mid, post, rfl, u, _, (rfl | rfl)⟩
    · exact Or.inl ⟨pre ++ u, post, by simp⟩
    · exact Or.inr ⟨pre ++ u, post, by simp⟩
  · rintro (⟨a, b, rfl⟩ | ⟨a, b, rfl⟩)
    · exact ⟨a, _, b, rfl, [], by simp, Or.inl rfl⟩
    · exact ⟨a, _, b, rfl, [], by simp, Or.inr rfl⟩

/-- Every path with the suffix `.yaml` or `.yml` is accepted. -/
theorem PathPattern_accepts_suffix (path : List Char) (h : hasYamlSuffix path = true) :
    ∃ re, Loader.PathPattern = some re ∧ re.MatchString path = true := by
  rw [PathPattern_MatchString_iff_contains]
  simp only [hasYamlSuffix, Bool.or_eq_true, List.isSuffixOf_iff_suffix] at h
  exact h.imp List.IsSuffix.isInfix List.IsSuffix.isInfix

/-- C9 fails on the code: `PathPattern()` matches `conf.yaml.bak` and
`a.yml/b.txt`, neither of which ends with `.yaml` or `.yml`; the expression
has no end anchor and `MatchString` searches for a match anywhere in the path.
(`conf.YAML` is not matched, `conf.yaml` is.) -/
theorem PathPattern_matches_without_suffix :
    ∃ re, Loader.PathPattern = some re ∧
      re.MatchString "conf.yaml.bak".toList = true ∧
      hasYamlSuffix "conf.yaml.bak".toList = false ∧
      re.MatchString "a.yml/b.txt".toList = true ∧
      hasYamlSuffix "a.yml/b.txt".toList = false ∧
      re.MatchString "conf.YAML".toList = false ∧
      re.MatchString "conf.yaml".toList = true :=
  ⟨configPathRegexTree, by decide, by decide, by decide, by decide, by decide, by decide,
    by decide⟩

end ConfigYaml
